import Mathlib

/-!
Shallow embedding of the sample-mining selectors
(`nntoolbox/vision/utils/selector.py`), the supervised training-iteration
control flow (`nntoolbox/vision/learner/supervised.py`), the regularization
callbacks (`nntoolbox/callbacks/regularization.py`) and the stochastic
weight averaging callback (`nntoolbox/callbacks/swa.py`).

Conventions:
* numpy integer label vectors become `List Int`; index vectors become
  `List Nat`; scalar tensor values become `ℚ` (exact arithmetic stands in
  for float arithmetic: the claims under study are about control flow,
  index bookkeeping and the algebraic shape of updates, not rounding);
* a Python function that can raise becomes an `Option`-valued function
  (`none` = the call raises);
* dict-valued payloads become association lists `List (String × ℚ)` with
  unique keys, looked up with `List.lookup`;
* the pairwise distance matrix produced by `emb_pairwise_dist` (defined
  outside the files under study) is abstracted as a function
  `dist : Nat → Nat → ℚ`; `get_batch_hard_triplets` only reads entries of
  that matrix.
-/

/-- Embedding of `itertools.combinations(range(n), 2)`: all pairs `(i, j)`
with `i < j < n`, in lexicographic order. -/
def combinations2 (n : Nat) : List (Nat × Nat) :=
  (List.range n).flatMap fun i =>
    ((List.range n).filter fun j => i < j).map fun j => (i, j)

/-- Embedding of the `.astype(np.uint8)` cast on an index pair in
`get_all_pairs` (selector.py line 86): both coordinates are reduced
modulo 256. -/
def castUInt8 (p : Nat × Nat) : Nat × Nat :=
  (p.1 % 256, p.2 % 256)

/-- Embedding of `get_all_pairs` (selector.py lines 83-91).  Enumerates all
index combinations, casts them to `uint8`, and partitions them by comparing
the labels at the (cast) indices.  When the batch has fewer than two
elements, `list(combinations(...))` is empty, so `np.array([])` is a
one-dimensional float array and the subsequent `all_pairs[:, 0]` raises
`IndexError`; this failure is modelled by returning `none`. -/
def get_all_pairs (labels : List Int) :
    Option (List (Nat × Nat) × List (Nat × Nat)) :=
  if labels.length < 2 then none
  else
    let all_pairs := (combinations2 labels.length).map castUInt8
    let pos_pairs := all_pairs.filter fun p => labels.getD p.1 0 == labels.getD p.2 0
    let neg_pairs := all_pairs.filter fun p => !(labels.getD p.1 0 == labels.getD p.2 0)
    some (pos_pairs, neg_pairs)

/-- Reference variant of `get_all_pairs` following the claim's words "the
true indices": the same enumeration and partition but without the `uint8`
cast.  Used only to compare against `get_all_pairs`. -/
def get_all_pairs_uncast (labels : List Int) :
    Option (List (Nat × Nat) × List (Nat × Nat)) :=
  if labels.length < 2 then none
  else
    let all_pairs := combinations2 labels.length
    let pos_pairs := all_pairs.filter fun p => labels.getD p.1 0 == labels.getD p.2 0
    let neg_pairs := all_pairs.filter fun p => !(labels.getD p.1 0 == labels.getD p.2 0)
    some (pos_pairs, neg_pairs)

/-- Embedding of `get_all_triplets` (selector.py lines 94-102): for each
positive pair `pos` (in order) and each negative pair `neg` (in order) with
`pos[0] == neg[0]`, emit `(pos[0], pos[1], neg[1])`.  Propagates the
failure of `get_all_pairs` on batches with fewer than two elements. -/
def get_all_triplets (labels : List Int) : Option (List (Nat × Nat × Nat)) :=
  (get_all_pairs labels).map fun pairs =>
    pairs.1.flatMap fun pos =>
      (pairs.2.filter fun neg => neg.1 == pos.1).map fun neg => (pos.1, pos.2, neg.2)

/-- Embedding of `PairSelector.select` (selector.py lines 28-48), with the
result of `self.get_pairs` passed in as the two pair lists and embedding
rows modelled as rationals (the row dimension plays no role).
`torch.index_select` becomes a positional gather (`getD`), `torch.cat`
becomes list append, and `torch.ones`/`torch.zeros` become `replicate`. -/
def PairSelector.select (embeddings : List ℚ)
    (pos_pairs neg_pairs : List (Nat × Nat)) :
    (List ℚ × List ℚ) × List ℚ :=
  let first :=
    pos_pairs.map (fun p => embeddings.getD p.1 0) ++
      neg_pairs.map (fun p => embeddings.getD p.1 0)
  let second :=
    pos_pairs.map (fun p => embeddings.getD p.2 0) ++
      neg_pairs.map (fun p => embeddings.getD p.2 0)
  let sim_labels :=
    List.replicate pos_pairs.length (1 : ℚ) ++
      List.replicate neg_pairs.length (0 : ℚ)
  ((first, second), sim_labels)

/-- Index of choice for `torch.argmax` over `l.map d`, returned as the list
element itself: a left fold keeping the first element attaining the maximum
key (a strict improvement is required to replace the current best, so ties
keep the earlier index, matching the deterministic first-occurrence
reading of `torch.argmax`). -/
def argmaxBy (d : Nat → ℚ) : List Nat → Nat
  | [] => 0
  | x :: xs => xs.foldl (fun best y => if d best < d y then y else best) x

/-- Index of choice for `torch.argmin` over `l.map d`: first element
attaining the minimum key. -/
def argminBy (d : Nat → ℚ) : List Nat → Nat
  | [] => 0
  | x :: xs => xs.foldl (fun best y => if d y < d best then y else best) x

/-- Embedding of `c_idx = np.where(labels == c)[0]` (selector.py line 123):
the indices of the batch whose label is `c`, in ascending order. -/
def class_indices (labels : List Int) (c : Int) : List Nat :=
  (List.range labels.length).filter fun i => labels.getD i 0 == c

/-- Embedding of `other_idx = np.where(labels != c)[0]` (selector.py
line 127): the indices of the batch whose label differs from `c`. -/
def other_indices (labels : List Int) (c : Int) : List Nat :=
  (List.range labels.length).filter fun i => !(labels.getD i 0 == c)

/-- Per-class body of `get_batch_hard_triplets` (selector.py lines 122-140):
skip classes with fewer than two members or with no out-of-class example;
otherwise, for each anchor `an` of the class, pair it with the furthest
same-class index and the nearest different-class index under `dist`. -/
def hard_triplets_for_class (dist : Nat → Nat → ℚ) (labels : List Int)
    (c : Int) : List (Nat × Nat × Nat) :=
  let c_idx := class_indices labels c
  if c_idx.length < 2 then []
  else
    let other_idx := other_indices labels c
    if other_idx.length < 1 then []
    else
      c_idx.map fun an =>
        (an, argmaxBy (dist an) (c_idx.filter fun p => p != an),
          argminBy (dist an) other_idx)

/-- Embedding of `get_batch_hard_triplets` (selector.py lines 105-142).
`set(labels.ravel())` is modelled as `labels.dedup` (each distinct label
once; the iteration order of a Python `set` is unspecified, and no claim
under study depends on the class order).  The distance matrix
`emb_pairwise_dist(embeddings, False)` is abstracted as `dist`. -/
def get_batch_hard_triplets (dist : Nat → Nat → ℚ) (labels : List Int) :
    List (Nat × Nat × Nat) :=
  labels.dedup.flatMap (hard_triplets_for_class dist labels)

/-- Aggregated boolean results of the three control dispatches made by
`SupervisedImageLearner.learn_one_iter` (`on_backward_begin`,
`after_backward`, `after_step`).  The `CallbackHandler` itself is outside
the files under study; `learn_one_iter` only consumes these booleans. -/
structure IterFlags where
  onBackwardBegin : Bool
  afterBackward : Bool
  afterStep : Bool

/-- Observable actions of one training iteration: the backward pass, the
optimizer step, gradient zeroing, and the `on_batch_end` dispatch together
with the keys of the logs mapping passed to it. -/
inductive Event where
  | backward : Event
  | optimStep : Event
  | zeroGrad : Event
  | batchEnd : List String → Event
deriving DecidableEq

/-- Embedding of the control flow of `SupervisedImageLearner.learn_one_iter`
(supervised.py lines 29-51) as the trace of events it performs, given the
control-dispatch results and whether the device is CUDA.  The payload
transforms of lines 30-37 (`on_batch_begin`, mixup, `after_losses`) carry
no gating and are not traced.  Note the `on_batch_end` dispatch of lines
46-50 sits inside the `if self._cb_handler.after_backward():` block. -/
def learn_one_iter (cb : IterFlags) (cuda : Bool) : List Event :=
  (if cb.onBackwardBegin then [Event.backward] else []) ++
    (if cb.afterBackward then
      [Event.optimStep] ++
        (if cb.afterStep then [Event.zeroGrad] else []) ++
        (if cuda then [Event.batchEnd ["loss", "allocated_memory"]]
         else [Event.batchEnd ["loss"]])
    else [])

/-- Recognizer for `on_batch_end` events in a trace. -/
def isBatchEnd : Event → Bool
  | Event.batchEnd _ => true
  | _ => false

/-- Embedding of the loop `reg = 0.0; for p in parameters: reg = reg +
regularizer(p.data)` of `WeightRegularization.after_losses`
(regularization.py lines 27-29). -/
def weight_reg_term (regularizer : ℚ → ℚ) (params : List ℚ) : ℚ :=
  params.foldl (fun reg p => reg + regularizer p) 0

/-- Embedding of `WeightRegularization.after_losses` (regularization.py
lines 25-31).  The `assert self.loss_name in losses` precondition failure
is modelled by `none`; otherwise the entry named `loss_name` is increased
by `lambd * reg` and the mapping is returned. -/
def WeightRegularization.after_losses (regularizer : ℚ → ℚ) (lambd : ℚ)
    (loss_name : String) (params : List ℚ) (losses : List (String × ℚ)) :
    Option (List (String × ℚ)) :=
  if (losses.map Prod.fst).contains loss_name then
    some (losses.map fun kv =>
      if kv.1 == loss_name then
        (kv.1, kv.2 + lambd * weight_reg_term regularizer params)
      else kv)
  else none

/-- Embedding of `ActivationRegularization.after_losses` (regularization.py
lines 83-87).  `store` is the tensor held by the output hook; the returned
`Option ℚ` is the hook's store after the call (`self.hook.store = None`). -/
def ActivationRegularization.after_losses (regularizer : ℚ → ℚ) (lambd : ℚ)
    (loss_name : String) (store : ℚ) (losses : List (String × ℚ)) :
    Option (List (String × ℚ) × Option ℚ) :=
  if (losses.map Prod.fst).contains loss_name then
    some
      (losses.map fun kv =>
        if kv.1 == loss_name then (kv.1, kv.2 + regularizer store * lambd)
        else kv,
       none)
  else none

/-- Embedding of one `StochasticWeightAveraging` hook call (swa.py lines
21-49; `on_epoch_end` and `on_batch_end` share this body, with `counter`
standing for `logs["epoch"]` or `logs["iter_cnt"]`).  `current` is the
named-parameter list of the model being trained, `averaged` that of
`model_swa`; an averaged parameter whose name occurs among the current
model's parameters is replaced by
`(current + n_model * averaged) / (n_model + 1)` where
`n_model = (counter - average_after) / update_every` is re-derived from
the counter, and the update happens only when `counter ≥ average_after`
and `counter % update_every == 0`. -/
def swa_update (average_after update_every counter : Nat)
    (current averaged : List (String × ℚ)) : List (String × ℚ) :=
  if average_after ≤ counter ∧ counter % update_every = 0 then
    let n_model : Nat := (counter - average_after) / update_every
    averaged.map fun kv =>
      match current.lookup kv.1 with
      | some p => (kv.1, (p + (n_model : ℚ) * kv.2) / ((n_model : ℚ) + 1))
      | none => kv
  else averaged

/-! Helper lemmas about the enumeration of index combinations. -/

/-- Characterization of membership in `combinations2`. -/
theorem mem_combinations2 {n i j : Nat} :
    (i, j) ∈ combinations2 n ↔ i < j ∧ j < n := by
  simp only [combinations2, List.mem_flatMap, List.mem_map, List.mem_filter,
    List.mem_range, decide_eq_true_eq, Prod.mk.injEq]
  constructor
  · rintro ⟨a, _, b, ⟨hb, hab⟩, rfl, rfl⟩
    exact ⟨hab, hb⟩
  · rintro ⟨hij, hj⟩
    exact ⟨i, by omega, j, ⟨⟨hj, hij⟩, rfl, rfl⟩⟩

/-- C4: In `learn_one_iter`, the backward pass runs iff `on_backward_begin`
returned true; the optimizer step runs iff `after_backward` returned true;
and gradient zeroing runs iff `after_backward` returned true and
`after_step` returned true. -/
theorem learn_one_iter_gating (cb : IterFlags) (cuda : Bool) :
    (Event.backward ∈ learn_one_iter cb cuda ↔ cb.onBackwardBegin = true) ∧
    (Event.optimStep ∈ learn_one_iter cb cuda ↔ cb.afterBackward = true) ∧
    (Event.zeroGrad ∈ learn_one_iter cb cuda ↔
      (cb.afterBackward = true ∧ cb.afterStep = true)) := by
  obtain ⟨b1, b2, b3⟩ := cb
  cases b1 <;> cases b2 <;> cases b3 <;> cases cuda <;> decide

/-- C1 counterexample: in the iteration where `on_backward_begin` returned
true, `after_backward` returned false and `after_step` returned true (CPU
device), `learn_one_iter` performs no `on_batch_end` dispatch at all: the
dispatch of supervised.py lines 46-50 is nested inside the
`if self._cb_handler.after_backward():` block. -/
theorem learn_one_iter_batch_end_skipped_counterexample :
    (learn_one_iter ⟨true, false, true⟩ false).any isBatchEnd = false := by
  decide

/-- C1 (amended): `on_batch_end` is dispatched iff `after_backward`
returned true (independently of `on_backward_begin` and `after_step`), and
whenever it is dispatched its logs contain the loss key, plus the
allocated-memory key exactly when the device is CUDA. -/
theorem learn_one_iter_batch_end (cb : IterFlags) (cuda : Bool) :
    ((learn_one_iter cb cuda).any isBatchEnd = cb.afterBackward) ∧
    (∀ keys, Event.batchEnd keys ∈ learn_one_iter cb cuda →
      "loss" ∈ keys ∧ ("allocated_memory" ∈ keys ↔ cuda = true)) := by
  obtain ⟨b1, b2, b3⟩ := cb
  cases b1 <;> cases b2 <;> cases b3 <;> cases cuda <;>
    refine ⟨by decide, fun keys h => ?_⟩ <;>
    simp only [learn_one_iter, List.mem_append, List.mem_cons,
      List.not_mem_nil, or_false, false_or, if_true, if_false,
      List.mem_singleton] at h <;>
    first
      | (simp only [reduceCtorEq, or_self, or_false, false_or] at h;
         injection h with h; subst h; decide)
      | simp_all

/-- Witness for `learn_one_iter_batch_end` at a concrete iteration. -/
theorem learn_one_iter_batch_end_witness :
    "loss" ∈ ["loss", "allocated_memory"] ∧
      ("allocated_memory" ∈ ["loss", "allocated_memory"] ↔ true = true) :=
  (learn_one_iter_batch_end ⟨true, true, true⟩ true).2
    ["loss", "allocated_memory"] (by decide)

/-- C2 counterexample: on labels `[0,0,1,1]` no triplet with anchor 1 is
emitted; in particular `(1, 0, 2)` is absent from the output of
`get_all_triplets` (pairs are enumerated as combinations with first index
strictly below the second, so index 1 never heads a positive pair). -/
theorem get_all_triplets_anchor1_counterexample :
    (1, 0, 2) ∉ (get_all_triplets [0, 0, 1, 1]).getD [] := by
  decide

/-- C2 (amended): `get_all_triplets` on labels `[0,0,1,1]` emits exactly
the triplets `(0,1,2)` and `(0,1,3)` — anchor 0 with positive 1 against
negatives 2 and 3 — and no triplets with anchor 1. -/
theorem get_all_triplets_on_0011 :
    get_all_triplets [0, 0, 1, 1] = some [(0, 1, 2), (0, 1, 3)] := by
  decide

/-- Positional value of a mapped gather list. -/
theorem getD_map_of_lt {α : Type} (f : α → ℚ) (l : List α) (k : Nat)
    (d : α) (h : k < l.length) : (l.map f).getD k 0 = f (l.getD k d) := by
  rw [List.getD_eq_getElem _ _ (by simpa using h), List.getElem_map,
    List.getD_eq_getElem _ _ h]

/-- Positional value of a replicated list. -/
theorem getD_replicate_of_lt (x : ℚ) (n k : Nat) (h : k < n) :
    (List.replicate n x).getD k 0 = x := by
  rw [List.getD_eq_getElem _ _ (by simpa using h), List.getElem_replicate]

/-- C6: `PairSelector.select` concatenates the gathered positive pairs
first and the gathered negative pairs second (each in enumeration order),
and the similarity-label vector is 1 at every positive-pair position and 0
at every negative-pair position of that same concatenated order. -/
theorem pair_selector_select_spec (embeddings : List ℚ)
    (pos_pairs neg_pairs : List (Nat × Nat)) (k : Nat) :
    (PairSelector.select embeddings pos_pairs neg_pairs).1.1.length =
        pos_pairs.length + neg_pairs.length ∧
    (PairSelector.select embeddings pos_pairs neg_pairs).2.length =
        pos_pairs.length + neg_pairs.length ∧
    (k < pos_pairs.length →
      (PairSelector.select embeddings pos_pairs neg_pairs).1.1.getD k 0 =
          embeddings.getD (pos_pairs.getD k (0, 0)).1 0 ∧
      (PairSelector.select embeddings pos_pairs neg_pairs).1.2.getD k 0 =
          embeddings.getD (pos_pairs.getD k (0, 0)).2 0 ∧
      (PairSelector.select embeddings pos_pairs neg_pairs).2.getD k 0 = 1) ∧
    (pos_pairs.length ≤ k → k < pos_pairs.length + neg_pairs.length →
      (PairSelector.select embeddings pos_pairs neg_pairs).1.1.getD k 0 =
          embeddings.getD (neg_pairs.getD (k - pos_pairs.length) (0, 0)).1 0 ∧
      (PairSelector.select embeddings pos_pairs neg_pairs).1.2.getD k 0 =
          embeddings.getD (neg_pairs.getD (k - pos_pairs.length) (0, 0)).2 0 ∧
      (PairSelector.select embeddings pos_pairs neg_pairs).2.getD k 0 = 0) := by
  simp only [PairSelector.select]
  refine ⟨by simp, by simp, fun hk => ⟨?_, ?_, ?_⟩, fun hk1 hk2 => ⟨?_, ?_, ?_⟩⟩
  · rw [List.getD_append _ _ _ _ (by simpa using hk),
      getD_map_of_lt _ _ _ (0, 0) hk]
  · rw [List.getD_append _ _ _ _ (by simpa using hk),
      getD_map_of_lt _ _ _ (0, 0) hk]
  · rw [List.getD_append _ _ _ _ (by simpa using hk),
      getD_replicate_of_lt _ _ _ hk]
  · rw [List.getD_append_right _ _ _ _ (by simpa using hk1), List.length_map,
      getD_map_of_lt _ _ _ (0, 0) (by omega)]
  · rw [List.getD_append_right _ _ _ _ (by simpa using hk1), List.length_map,
      getD_map_of_lt _ _ _ (0, 0) (by omega)]
  · rw [List.getD_append_right _ _ _ _ (by simpa using hk1),
      List.length_replicate, getD_replicate_of_lt _ _ _ (by omega)]

/-- Witness for `pair_selector_select_spec` at a concrete batch (one
positive pair, two negative pairs, position 1 = first negative pair). -/
theorem pair_selector_select_spec_witness :
    (PairSelector.select [10, 20, 30] [(0, 1)] [(0, 2), (1, 2)]).2.getD 1 0
      = 0 :=
  ((pair_selector_select_spec [10, 20, 30] [(0, 1)] [(0, 2), (1, 2)] 1).2.2.2
    (by decide) (by decide)).2.2

/-! Helper lemmas about association-list lookups through key-preserving
entry updates. -/

/-- Looking up through a map that rewrites each entry value as a function
of its own key. -/
theorem lookup_map_entry (g : String → ℚ → ℚ) (l : List (String × ℚ))
    (a : String) :
    (l.map fun kv => (kv.1, g kv.1 kv.2)).lookup a =
      (l.lookup a).map (g a) := by
  induction l with
  | nil => rfl
  | cons kv tl ih =>
    obtain ⟨k, v⟩ := kv
    simp only [List.map_cons, List.lookup]
    cases h : a == k with
    | true =>
      have hak : a = k := eq_of_beq h
      subst hak
      simp
    | false => simpa using ih

/-- A map that rewrites each entry value in place preserves the key list. -/
theorem keys_map_entry (g : String → ℚ → ℚ) (l : List (String × ℚ)) :
    (l.map fun kv => (kv.1, g kv.1 kv.2)).map Prod.fst = l.map Prod.fst := by
  induction l with
  | nil => rfl
  | cons kv tl ih => simp [ih]

/-- Rewriting the single-entry update of the regularization callbacks in
entry-wise form. -/
theorem update_entry_eq (name : String) (f : ℚ → ℚ) :
    (fun kv : String × ℚ => if kv.1 == name then (kv.1, f kv.2) else kv) =
      fun kv : String × ℚ => (kv.1, if kv.1 == name then f kv.2 else kv.2) := by
  funext kv
  by_cases h : kv.1 == name <;> simp [h]

/-- Lookup through the single-entry update used by the regularization
callbacks. -/
theorem lookup_update (name : String) (f : ℚ → ℚ) (l : List (String × ℚ))
    (a : String) :
    (l.map fun kv => if kv.1 == name then (kv.1, f kv.2) else kv).lookup a =
      (l.lookup a).map (fun v => if a == name then f v else v) := by
  rw [update_entry_eq name f]
  exact lookup_map_entry (fun k v => if k == name then f v else v) l a

/-- The single-entry update preserves the key list. -/
theorem keys_update (name : String) (f : ℚ → ℚ) (l : List (String × ℚ)) :
    (l.map fun kv => if kv.1 == name then (kv.1, f kv.2) else kv).map
        Prod.fst = l.map Prod.fst := by
  rw [update_entry_eq name f]
  exact keys_map_entry (fun k v => if k == name then f v else v) l

/-- C8: the `after_losses` hooks of `WeightRegularization` and
`ActivationRegularization` fail (assertion) iff the configured loss name
is absent from the losses mapping; when present, the named entry is
increased by lambda times the respective regularization term and no other
key is removed or altered. -/
theorem regularization_after_losses_spec (regularizer : ℚ → ℚ) (lambd : ℚ)
    (loss_name : String) (params : List ℚ) (store : ℚ)
    (losses : List (String × ℚ)) :
    (WeightRegularization.after_losses regularizer lambd loss_name params
        losses = none ↔ loss_name ∉ losses.map Prod.fst) ∧
    (ActivationRegularization.after_losses regularizer lambd loss_name store
        losses = none ↔ loss_name ∉ losses.map Prod.fst) ∧
    (∀ out, WeightRegularization.after_losses regularizer lambd loss_name
        params losses = some out →
      out.lookup loss_name = (losses.lookup loss_name).map
          (fun v => v + lambd * weight_reg_term regularizer params) ∧
      (∀ k, k ≠ loss_name → out.lookup k = losses.lookup k) ∧
      out.map Prod.fst = losses.map Prod.fst) ∧
    (∀ out st, ActivationRegularization.after_losses regularizer lambd
        loss_name store losses = some (out, st) →
      out.lookup loss_name = (losses.lookup loss_name).map
          (fun v => v + regularizer store * lambd) ∧
      (∀ k, k ≠ loss_name → out.lookup k = losses.lookup k) ∧
      out.map Prod.fst = losses.map Prod.fst ∧ st = none) := by
  by_cases hmem : loss_name ∈ losses.map Prod.fst
  · have hc : (losses.map Prod.fst).contains loss_name = true := by
      simpa using hmem
    simp only [WeightRegularization.after_losses,
      ActivationRegularization.after_losses, hc, if_true]
    refine ⟨by simp [hmem], by simp [hmem], fun out hout => ?_,
      fun out st hout => ?_⟩
    · have hout2 := Option.some.inj hout
      subst hout2
      refine ⟨?_, fun k hk => ?_,
        keys_update loss_name
          (fun v => v + lambd * weight_reg_term regularizer params) losses⟩
      · have h1 := lookup_update loss_name
          (fun v => v + lambd * weight_reg_term regularizer params) losses
          loss_name
        simpa using h1
      · have h1 := lookup_update loss_name
          (fun v => v + lambd * weight_reg_term regularizer params) losses k
        have hk2 : (k == loss_name) = false := by
          simpa using hk
        simpa [hk2] using h1
    · have hout2 := Option.some.inj hout
      have hfst : (losses.map fun kv =>
          if kv.1 == loss_name then
            (kv.1, kv.2 + regularizer store * lambd)
          else kv) = out := congrArg Prod.fst hout2
      have hsnd : (none : Option ℚ) = st := congrArg Prod.snd hout2
      subst hfst
      subst hsnd
      refine ⟨?_, fun k hk => ?_,
        keys_update loss_name (fun v => v + regularizer store * lambd)
          losses, rfl⟩
      · have h1 := lookup_update loss_name
          (fun v => v + regularizer store * lambd) losses loss_name
        simpa using h1
      · have h1 := lookup_update loss_name
          (fun v => v + regularizer store * lambd) losses k
        have hk2 : (k == loss_name) = false := by
          simpa using hk
        simpa [hk2] using h1
  · have hc : (losses.map Prod.fst).contains loss_name = false := by
      simpa using hmem
    simp only [WeightRegularization.after_losses,
      ActivationRegularization.after_losses, hc, if_false, Bool.false_eq_true]
    exact ⟨by simp [hmem], by simp [hmem],
      fun out hout => absurd hout (by simp),
      fun out st hout => absurd hout (by simp)⟩

/-- Witness for `regularization_after_losses_spec`: with two losses, a
present key, `lambd = 2` and identity regularizer over parameter list
`[3]`, the named entry is increased and the other entry survives. -/
theorem regularization_after_losses_spec_witness :
    ([("loss", 7), ("aux", 7)] : List (String × ℚ)).lookup "loss" =
      (([("loss", 1), ("aux", 7)] : List (String × ℚ)).lookup "loss").map
        (fun v => v + 2 * weight_reg_term (fun x => x) [3]) :=
  ((regularization_after_losses_spec (fun x => x) 2 "loss" [3] 5
    [("loss", 1), ("aux", 7)]).2.2.1 [("loss", 7), ("aux", 7)]
    (by norm_num [WeightRegularization.after_losses, weight_reg_term]
        all_goals decide)).1

/-- C9: one `StochasticWeightAveraging` hook call leaves the averaged
parameters unchanged unless the counter for the configured timescale is at
least `average_after` and divisible by `update_every`, and otherwise
replaces each averaged parameter shared with the current model by
`(current + n_model * averaged) / (n_model + 1)`, where
`n_model = (counter - average_after) / update_every` is re-derived from
the counter on every call. -/
theorem swa_update_spec (average_after update_every counter : Nat)
    (current averaged : List (String × ℚ)) (hu : 0 < update_every) :
    (¬ (average_after ≤ counter ∧ counter % update_every = 0) →
      swa_update average_after update_every counter current averaged =
        averaged) ∧
    (average_after ≤ counter → counter % update_every = 0 → ∀ name,
      (swa_update average_after update_every counter current
          averaged).lookup name =
        (averaged.lookup name).map fun v =>
          match current.lookup name with
          | some p =>
              (p + (((counter - average_after) / update_every : Nat) : ℚ) *
                  v) /
                ((((counter - average_after) / update_every : Nat) : ℚ) + 1)
          | none => v) := by
  have hu2 : update_every ≠ 0 := Nat.pos_iff_ne_zero.mp hu
  constructor
  · intro h
    simp only [swa_update, if_neg h]
  · intro h1 h2 name
    simp only [swa_update, if_pos (And.intro h1 h2)]
    have heq : (fun kv : String × ℚ =>
        match current.lookup kv.1 with
        | some p =>
            (kv.1, (p + (((counter - average_after) / update_every : Nat) :
                ℚ) * kv.2) /
              ((((counter - average_after) / update_every : Nat) : ℚ) + 1))
        | none => kv) = fun kv : String × ℚ => (kv.1,
          match current.lookup kv.1 with
          | some p =>
              (p + (((counter - average_after) / update_every : Nat) : ℚ) *
                  kv.2) /
                ((((counter - average_after) / update_every : Nat) : ℚ) + 1)
          | none => kv.2) := by
      funext kv
      cases current.lookup kv.1 <;> simp
    rw [heq]
    exact lookup_map_entry
      (fun k v =>
        match current.lookup k with
        | some p =>
            (p + (((counter - average_after) / update_every : Nat) : ℚ) * v) /
              ((((counter - average_after) / update_every : Nat) : ℚ) + 1)
        | none => v)
      averaged name

/-! Helper lemmas about the `uint8` cast on enumerated index pairs. -/

/-- The cast is the identity on combinations drawn from a batch of at most
256 elements. -/
theorem castUInt8_of_le {n : Nat} (hle : n ≤ 256) {p : Nat × Nat}
    (hp : p ∈ combinations2 n) : castUInt8 p = p := by
  obtain ⟨i, j⟩ := p
  obtain ⟨hij, hj⟩ := mem_combinations2.mp hp
  simp only [castUInt8]
  rw [Nat.mod_eq_of_lt (by omega), Nat.mod_eq_of_lt (by omega)]

/-- Casting every combination of a small batch changes nothing. -/
theorem map_castUInt8_of_le {n : Nat} (hle : n ≤ 256) :
    (combinations2 n).map castUInt8 = combinations2 n := by
  rw [List.map_congr_left (fun p hp => castUInt8_of_le hle hp)]
  simp

/-- A successful `get_all_pairs` means the batch has at least two
elements. -/
theorem get_all_pairs_some_len {labels : List Int}
    {pr : List (Nat × Nat) × List (Nat × Nat)}
    (h : get_all_pairs labels = some pr) : 2 ≤ labels.length := by
  by_contra hlt
  simp only [get_all_pairs, if_pos (by omega : labels.length < 2)] at h
  exact Option.noConfusion h

/-- Destructuring a successful `get_all_pairs` into its two filters. -/
theorem get_all_pairs_some_eq {labels : List Int}
    {pos neg : List (Nat × Nat)}
    (h : get_all_pairs labels = some (pos, neg)) :
    pos = ((combinations2 labels.length).map castUInt8).filter
        (fun p => labels.getD p.1 0 == labels.getD p.2 0) ∧
    neg = ((combinations2 labels.length).map castUInt8).filter
        (fun p => !(labels.getD p.1 0 == labels.getD p.2 0)) := by
  have h2 : ¬ labels.length < 2 := by
    have := get_all_pairs_some_len h
    omega
  simp only [get_all_pairs, if_neg h2] at h
  have h3 := Option.some.inj h
  exact ⟨(congrArg Prod.fst h3).symm, (congrArg Prod.snd h3).symm⟩

/-- C10: `get_all_pairs` casts the enumerated index pairs to 8-bit
unsigned integers, so on batches of at most 256 elements the result equals
the uncast enumeration, while in general every source combination `(i, j)`
is emitted (into the positive or the negative set) with its indices
reduced modulo 256. -/
theorem get_all_pairs_uint8_spec (labels : List Int) :
    (labels.length ≤ 256 →
      get_all_pairs labels = get_all_pairs_uncast labels) ∧
    (∀ i j : Nat, i < j → j < labels.length → ∀ pos neg,
      get_all_pairs labels = some (pos, neg) →
      (i % 256, j % 256) ∈ pos ∨ (i % 256, j % 256) ∈ neg) := by
  constructor
  · intro hle
    by_cases h2 : labels.length < 2
    · simp only [get_all_pairs, get_all_pairs_uncast, if_pos h2]
    · simp only [get_all_pairs, get_all_pairs_uncast, if_neg h2,
        map_castUInt8_of_le hle]
  · intro i j hij hj pos neg h
    obtain ⟨hpos, hneg⟩ := get_all_pairs_some_eq h
    have hmem : ((i % 256, j % 256) : Nat × Nat) ∈
        (combinations2 labels.length).map castUInt8 := by
      have := List.mem_map_of_mem castUInt8 (mem_combinations2.mpr ⟨hij, hj⟩)
      simpa [castUInt8] using this
    by_cases hlab :
        (labels.getD (i % 256) 0 == labels.getD (j % 256) 0) = true
    · exact Or.inl (hpos ▸ List.mem_filter.mpr ⟨hmem, hlab⟩)
    · refine Or.inr (hneg ▸ List.mem_filter.mpr ⟨hmem, ?_⟩)
      simp only [Bool.not_eq_true] at hlab
      show (!(labels.getD (i % 256) 0 == labels.getD (j % 256) 0)) = true
      rw [hlab]
      rfl

/-- Witness for `get_all_pairs_uint8_spec` on the batch `[0,0,1]`: the
cast changes nothing and the combination `(0, 1)` lands in the positive
set. -/
theorem get_all_pairs_uint8_spec_witness :
    get_all_pairs [0, 0, 1] = get_all_pairs_uncast [0, 0, 1] ∧
      (((0 % 256 : Nat), (1 % 256 : Nat)) ∈ [((0 : Nat), (1 : Nat))] ∨
        ((0 % 256 : Nat), (1 % 256 : Nat)) ∈
          [((0 : Nat), (2 : Nat)), ((1 : Nat), (2 : Nat))]) :=
  ⟨(get_all_pairs_uint8_spec [0, 0, 1]).1 (by decide),
    (get_all_pairs_uint8_spec [0, 0, 1]).2 0 1 (by decide) (by decide)
      [(0, 1)] [(0, 2), (1, 2)] (by decide)⟩

/-- C5 counterexample: on a batch of 257 equally-labelled elements the
enumerated combination `(0, 256)` is cast to the self-pair `(0, 0)`, which
is returned among the positive pairs — so "no pair has equal first and
second index" fails in general. -/
theorem get_all_pairs_self_pair_counterexample :
    (0, 0) ∈
      ((get_all_pairs (List.replicate 257 (0 : Int))).getD ([], [])).1 := by
  have h2 : ¬ (List.replicate 257 (0 : Int)).length < 2 := by
    rw [List.length_replicate]
    omega
  simp only [get_all_pairs, if_neg h2, Option.getD_some]
  refine List.mem_filter.mpr ⟨?_, beq_self_eq_true _⟩
  have hm : ((0 : Nat), (256 : Nat)) ∈
      combinations2 (List.replicate 257 (0 : Int)).length := by
    rw [List.length_replicate]
    exact mem_combinations2.mpr (by omega)
  have hc : castUInt8 (0, 256) = (0, 0) := by decide
  exact hc ▸ List.mem_map_of_mem castUInt8 hm

/-- C5 (amended): `get_all_pairs` on labels `[0,0,1]` returns exactly the
positive pair `(0,1)` and the negative pairs `(0,2)` and `(1,2)`; in
general every returned positive pair carries equal labels, every returned
negative pair carries different labels, and on batches of at most 256
elements no returned pair has equal first and second index (on larger
batches the `uint8` cast can wrap an index onto a self-pair). -/
theorem get_all_pairs_spec (labels : List Int) (pos neg : List (Nat × Nat))
    (h : get_all_pairs labels = some (pos, neg)) :
    get_all_pairs [0, 0, 1] = some ([(0, 1)], [(0, 2), (1, 2)]) ∧
    (∀ p ∈ pos, labels.getD p.1 0 = labels.getD p.2 0) ∧
    (∀ p ∈ neg, labels.getD p.1 0 ≠ labels.getD p.2 0) ∧
    (labels.length ≤ 256 → ∀ p, (p ∈ pos ∨ p ∈ neg) → p.1 < p.2) := by
  obtain ⟨hpos, hneg⟩ := get_all_pairs_some_eq h
  subst hpos
  subst hneg
  refine ⟨by decide, fun p hp => ?_, fun p hp => ?_, fun hle p hp => ?_⟩
  · simpa using (List.mem_filter.mp hp).2
  · simpa using (List.mem_filter.mp hp).2
  · have hmem : p ∈ (combinations2 labels.length).map castUInt8 := by
      rcases hp with hp | hp
      · exact (List.mem_filter.mp hp).1
      · exact (List.mem_filter.mp hp).1
    obtain ⟨q, hq, hqp⟩ := List.mem_map.mp hmem
    rw [← hqp, castUInt8_of_le hle hq]
    obtain ⟨i, j⟩ := q
    exact (mem_combinations2.mp hq).1

/-- Witness for `get_all_pairs_spec` on the batch `[0,0,1]`: the returned
positive pair `(0,1)` indeed joins equal labels. -/
theorem get_all_pairs_spec_witness :
    ([0, 0, 1] : List Int).getD 0 0 = ([0, 0, 1] : List Int).getD 1 0 :=
  (get_all_pairs_spec [0, 0, 1] [(0, 1)] [(0, 2), (1, 2)] (by decide)).2.1
    (0, 1) (by decide)

/-! Helper lemmas about class and out-of-class index sets. -/

/-- Membership in `class_indices`. -/
theorem mem_class_indices {labels : List Int} {c : Int} {i : Nat} :
    i ∈ class_indices labels c ↔
      i < labels.length ∧ labels.getD i 0 = c := by
  simp [class_indices, List.mem_filter, List.mem_range]

/-- Membership in `other_indices`. -/
theorem mem_other_indices {labels : List Int} {c : Int} {i : Nat} :
    i ∈ other_indices labels c ↔
      i < labels.length ∧ labels.getD i 0 ≠ c := by
  simp [other_indices, List.mem_filter, List.mem_range]

/-- A label read at a valid index belongs to the batch. -/
theorem getD_mem_of_lt {labels : List Int} {i : Nat}
    (h : i < labels.length) : labels.getD i 0 ∈ labels := by
  rw [List.getD_eq_getElem _ _ h]
  exact List.getElem_mem h

/-- In a duplicate-free batch every class has at most one member index. -/
theorem class_indices_short_of_nodup {labels : List Int}
    (hnd : labels.Nodup) (c : Int) :
    (class_indices labels c).length < 2 := by
  rcases hc : class_indices labels c with _ | ⟨x, _ | ⟨y, tl⟩⟩
  · simp
  · simp
  · exfalso
    have hnodup : (class_indices labels c).Nodup :=
      List.Nodup.filter _ (List.nodup_range _)
    rw [hc] at hnodup
    have hxy : x ≠ y := by
      rcases List.nodup_cons.mp hnodup with ⟨hxmem, _⟩
      exact fun he => hxmem (he ▸ List.mem_cons_self _ _)
    have hx : x ∈ class_indices labels c := by
      rw [hc]
      exact List.mem_cons_self _ _
    have hy : y ∈ class_indices labels c := by
      rw [hc]
      exact List.mem_cons_of_mem _ (List.mem_cons_self _ _)
    obtain ⟨hxlt, hxc⟩ := mem_class_indices.mp hx
    obtain ⟨hylt, hyc⟩ := mem_class_indices.mp hy
    have hgx : labels[x] = c := by
      rw [← List.getD_eq_getElem labels 0 hxlt]
      exact hxc
    have hgy : labels[y] = c := by
      rw [← List.getD_eq_getElem labels 0 hylt]
      exact hyc
    exact hxy ((List.Nodup.getElem_inj_iff hnd).mp (by rw [hgx, hgy]))

/-- With a single distinct label, no index lies outside a present class. -/
theorem other_indices_nil_of_const {labels : List Int}
    (hall : ∀ x ∈ labels, ∀ y ∈ labels, x = y) {c : Int} (hc : c ∈ labels) :
    other_indices labels c = [] := by
  unfold other_indices
  apply List.filter_eq_nil_iff.mpr
  intro i hi
  have hieq : labels.getD i 0 = c :=
    hall _ (getD_mem_of_lt (List.mem_range.mp hi)) _ hc
  intro hcontra
  rw [hieq] at hcontra
  simp at hcontra

/-- With a single distinct label, `get_batch_hard_triplets` emits nothing
(every class is skipped for lack of out-of-class examples). -/
theorem get_batch_hard_triplets_nil_of_const (dist : Nat → Nat → ℚ)
    {labels : List Int} (hall : ∀ x ∈ labels, ∀ y ∈ labels, x = y) :
    get_batch_hard_triplets dist labels = [] := by
  unfold get_batch_hard_triplets
  apply List.flatMap_eq_nil_iff.mpr
  intro c hc
  have hcl : c ∈ labels := List.mem_dedup.mp hc
  simp only [hard_triplets_for_class]
  by_cases h1 : (class_indices labels c).length < 2
  · rw [if_pos h1]
  · rw [if_neg h1, other_indices_nil_of_const hall hcl,
      if_pos (by simp : ([] : List Nat).length < 1)]

/-- With a single distinct label (and a well-formed batch of at least two
elements) `get_all_triplets` emits nothing: the negative pair set is
empty. -/
theorem get_all_triplets_nil_of_const {labels : List Int}
    (hall : ∀ x ∈ labels, ∀ y ∈ labels, x = y) (hlen : 2 ≤ labels.length) :
    get_all_triplets labels = some [] := by
  have h2 : ¬ labels.length < 2 := by omega
  have hneg : ((combinations2 labels.length).map castUInt8).filter
      (fun p => !(labels.getD p.1 0 == labels.getD p.2 0)) = [] := by
    apply List.filter_eq_nil_iff.mpr
    intro p hp
    obtain ⟨q, hq, hqp⟩ := List.mem_map.mp hp
    obtain ⟨i, j⟩ := q
    obtain ⟨hij, hj⟩ := mem_combinations2.mp hq
    have hbounds : p.1 < labels.length ∧ p.2 < labels.length := by
      rw [← hqp]
      simp only [castUInt8]
      constructor <;> omega
    have heq : labels.getD p.1 0 = labels.getD p.2 0 :=
      hall _ (getD_mem_of_lt hbounds.1) _ (getD_mem_of_lt hbounds.2)
    intro hcontra
    rw [heq] at hcontra
    simp at hcontra
  unfold get_all_triplets
  simp only [get_all_pairs, if_neg h2, Option.map_some, hneg]
  simp

/-- In a duplicate-free batch of at most 256 elements the positive pair
set is empty. -/
theorem pos_pairs_nil_of_nodup {labels : List Int} (hnd : labels.Nodup)
    (hle : labels.length ≤ 256) {pos neg : List (Nat × Nat)}
    (h : get_all_pairs labels = some (pos, neg)) : pos = [] := by
  obtain ⟨hpos, _⟩ := get_all_pairs_some_eq h
  subst hpos
  apply List.filter_eq_nil_iff.mpr
  intro p hp
  obtain ⟨q, hq, hqp⟩ := List.mem_map.mp hp
  obtain ⟨i, j⟩ := q
  obtain ⟨hij, hj⟩ := mem_combinations2.mp hq
  rw [← hqp, castUInt8_of_le hle hq]
  intro hbeq
  have heq : labels.getD i 0 = labels.getD j 0 := by simpa using hbeq
  have hgij : labels[i] = labels[j] := by
    rw [← List.getD_eq_getElem labels 0 (by omega : i < labels.length),
      ← List.getD_eq_getElem labels 0 hj]
    exact heq
  have : i = j := (List.Nodup.getElem_inj_iff hnd).mp hgij
  omega

/-- In a duplicate-free batch of 2 to 256 elements `get_all_triplets`
emits nothing: the positive pair set is empty. -/
theorem get_all_triplets_nil_of_nodup {labels : List Int}
    (hnd : labels.Nodup) (hle : labels.length ≤ 256)
    (hlen : 2 ≤ labels.length) : get_all_triplets labels = some [] := by
  have h2 : ¬ labels.length < 2 := by omega
  have hsome : get_all_pairs labels = some
      (((combinations2 labels.length).map castUInt8).filter
        (fun p => labels.getD p.1 0 == labels.getD p.2 0),
       ((combinations2 labels.length).map castUInt8).filter
        (fun p => !(labels.getD p.1 0 == labels.getD p.2 0))) := by
    simp only [get_all_pairs, if_neg h2]
  have hpos := pos_pairs_nil_of_nodup hnd hle hsome
  unfold get_all_triplets
  rw [hsome]
  simp only [Option.map_some, hpos]
  simp

/-- C7 counterexample: `get_all_triplets` on a singleton batch (one
distinct label) raises instead of returning an empty set — the empty
combination list becomes a one-dimensional `np.array([])`, and indexing it
with `[:, 0]` fails — and on a batch of 257 pairwise-distinct labels the
`uint8` cast wraps combination `(0, 256)` onto the self-pair `(0, 0)`,
which is returned as a positive pair. -/
theorem selectors_degenerate_counterexample :
    get_all_triplets [(5 : Int)] = none ∧
    (0, 0) ∈
      ((get_all_pairs ((List.range 257).map Int.ofNat)).getD ([], [])).1 := by
  constructor
  · decide
  · have h2 : ¬ ((List.range 257).map Int.ofNat).length < 2 := by
      rw [List.length_map, List.length_range]
      omega
    simp only [get_all_pairs, if_neg h2, Option.getD_some]
    refine List.mem_filter.mpr ⟨?_, beq_self_eq_true _⟩
    have hm : ((0 : Nat), (256 : Nat)) ∈
        combinations2 ((List.range 257).map Int.ofNat).length := by
      rw [List.length_map, List.length_range]
      exact mem_combinations2.mpr (by omega)
    have hc : castUInt8 (0, 256) = (0, 0) := by decide
    exact hc ▸ List.mem_map_of_mem castUInt8 hm

/-- C7 (amended): on a batch with a single distinct label,
`get_batch_hard_triplets` returns no triplets, and so does
`get_all_triplets` provided the batch has at least two elements (on
smaller batches `get_all_pairs`, and hence `get_all_triplets`, raises an
IndexError on the empty combination array); on a batch of pairwise
distinct labels, `get_batch_hard_triplets` returns no triplets, and for
batches of 2 to 256 elements `get_all_pairs` returns zero positive pairs
and `get_all_triplets` returns no triplets (above 256 elements the
`uint8` cast can wrap a combination onto a label-equal pair). -/
theorem selectors_degenerate_spec (labels : List Int)
    (dist : Nat → Nat → ℚ) :
    ((∀ x ∈ labels, ∀ y ∈ labels, x = y) →
      get_batch_hard_triplets dist labels = [] ∧
      (2 ≤ labels.length → get_all_triplets labels = some [])) ∧
    (labels.Nodup →
      get_batch_hard_triplets dist labels = [] ∧
      (∀ pos neg, get_all_pairs labels = some (pos, neg) →
        labels.length ≤ 256 → pos = []) ∧
      (2 ≤ labels.length → labels.length ≤ 256 →
        get_all_triplets labels = some [])) := by
  refine ⟨fun hall => ⟨get_batch_hard_triplets_nil_of_const dist hall,
      fun hlen => get_all_triplets_nil_of_const hall hlen⟩,
    fun hnd => ⟨?_, fun pos neg h hle => pos_pairs_nil_of_nodup hnd hle h,
      fun hlen hle => get_all_triplets_nil_of_nodup hnd hle hlen⟩⟩
  unfold get_batch_hard_triplets
  apply List.flatMap_eq_nil_iff.mpr
  intro c _
  simp only [hard_triplets_for_class]
  rw [if_pos (class_indices_short_of_nodup hnd c)]

/-- Witness for `selectors_degenerate_spec` on the single-class batch
`[7, 7]` and the all-distinct batch `[1, 2]` (via `Nodup`). -/
theorem selectors_degenerate_spec_witness :
    get_batch_hard_triplets (fun _ _ => 0) [7, 7] = [] ∧
      get_all_triplets [1, 2] = some [] :=
  ⟨((selectors_degenerate_spec [7, 7] (fun _ _ => 0)).1
      (by decide)).1,
    ((selectors_degenerate_spec [1, 2] (fun _ _ => 0)).2
      (by decide)).2.2 (by decide) (by decide)⟩

/-! Helper lemmas for the argmax/argmin folds of the batch-hard
selector. -/

/-- The maximizing fold returns an element of the candidate list. -/
theorem foldl_pickMax_mem (d : Nat → ℚ) (x : Nat) (xs : List Nat) :
    xs.foldl (fun best y => if d best < d y then y else best) x ∈
      x :: xs := by
  induction xs generalizing x with
  | nil => simp
  | cons z zs ih =>
    simp only [List.foldl_cons]
    rcases List.mem_cons.mp (ih (if d x < d z then z else x)) with h | h
    · rw [h]
      by_cases hxz : d x < d z
      · rw [if_pos hxz]
        exact List.mem_cons_of_mem _ (List.mem_cons_self _ _)
      · rw [if_neg hxz]
        exact List.mem_cons_self _ _
    · exact List.mem_cons_of_mem _ (List.mem_cons_of_mem _ h)

/-- The maximizing fold dominates every candidate. -/
theorem foldl_pickMax_le (d : Nat → ℚ) (x : Nat) (xs : List Nat) :
    ∀ y ∈ x :: xs,
      d y ≤ d (xs.foldl (fun best y => if d best < d y then y else best)
        x) := by
  induction xs generalizing x with
  | nil =>
    intro y hy
    rcases List.mem_cons.mp hy with h | h
    · subst h
      simp
    · simp at h
  | cons z zs ih =>
    intro y hy
    simp only [List.foldl_cons]
    have hb : d x ≤ d (if d x < d z then z else x) ∧
        d z ≤ d (if d x < d z then z else x) := by
      by_cases hxz : d x < d z
      · rw [if_pos hxz]
        exact ⟨le_of_lt hxz, le_refl _⟩
      · rw [if_neg hxz]
        exact ⟨le_refl _, le_of_not_lt hxz⟩
    rcases List.mem_cons.mp hy with h | h
    · subst h
      exact le_trans hb.1 (ih _ _ (List.mem_cons_self _ _))
    · rcases List.mem_cons.mp h with h2 | h2
      · subst h2
        exact le_trans hb.2 (ih _ _ (List.mem_cons_self _ _))
      · exact ih _ y (List.mem_cons_of_mem _ h2)

/-- The minimizing fold returns an element of the candidate list. -/
theorem foldl_pickMin_mem (d : Nat → ℚ) (x : Nat) (xs : List Nat) :
    xs.foldl (fun best y => if d y < d best then y else best) x ∈
      x :: xs := by
  induction xs generalizing x with
  | nil => simp
  | cons z zs ih =>
    simp only [List.foldl_cons]
    rcases List.mem_cons.mp (ih (if d z < d x then z else x)) with h | h
    · rw [h]
      by_cases hxz : d z < d x
      · rw [if_pos hxz]
        exact List.mem_cons_of_mem _ (List.mem_cons_self _ _)
      · rw [if_neg hxz]
        exact List.mem_cons_self _ _
    · exact List.mem_cons_of_mem _ (List.mem_cons_of_mem _ h)

/-- The minimizing fold is dominated by every candidate. -/
theorem foldl_pickMin_le (d : Nat → ℚ) (x : Nat) (xs : List Nat) :
    ∀ y ∈ x :: xs,
      d (xs.foldl (fun best y => if d y < d best then y else best) x) ≤
        d y := by
  induction xs generalizing x with
  | nil =>
    intro y hy
    rcases List.mem_cons.mp hy with h | h
    · subst h
      simp
    · simp at h
  | cons z zs ih =>
    intro y hy
    simp only [List.foldl_cons]
    have hb : d (if d z < d x then z else x) ≤ d x ∧
        d (if d z < d x then z else x) ≤ d z := by
      by_cases hxz : d z < d x
      · rw [if_pos hxz]
        exact ⟨le_of_lt hxz, le_refl _⟩
      · rw [if_neg hxz]
        exact ⟨le_refl _, le_of_not_lt hxz⟩
    rcases List.mem_cons.mp hy with h | h
    · subst h
      exact le_trans (ih _ _ (List.mem_cons_self _ _)) hb.1
    · rcases List.mem_cons.mp h with h2 | h2
      · subst h2
        exact le_trans (ih _ _ (List.mem_cons_self _ _)) hb.2
      · exact ih _ y (List.mem_cons_of_mem _ h2)

/-- `argmaxBy` of a nonempty list is one of its elements. -/
theorem argmaxBy_mem (d : Nat → ℚ) {l : List Nat} (h : l ≠ []) :
    argmaxBy d l ∈ l := by
  cases l with
  | nil => exact absurd rfl h
  | cons x xs => exact foldl_pickMax_mem d x xs

/-- `argmaxBy` attains the maximum key among the candidates. -/
theorem le_argmaxBy (d : Nat → ℚ) {l : List Nat} :
    ∀ y ∈ l, d y ≤ d (argmaxBy d l) := by
  cases l with
  | nil =>
    intro y hy
    simp at hy
  | cons x xs => exact foldl_pickMax_le d x xs

/-- `argminBy` of a nonempty list is one of its elements. -/
theorem argminBy_mem (d : Nat → ℚ) {l : List Nat} (h : l ≠ []) :
    argminBy d l ∈ l := by
  cases l with
  | nil => exact absurd rfl h
  | cons x xs => exact foldl_pickMin_mem d x xs

/-- `argminBy` attains the minimum key among the candidates. -/
theorem argminBy_le (d : Nat → ℚ) {l : List Nat} :
    ∀ y ∈ l, d (argminBy d l) ≤ d y := by
  cases l with
  | nil =>
    intro y hy
    simp at hy
  | cons x xs => exact foldl_pickMin_le d x xs

/-! Helper lemmas for counting anchors across the per-class flat map. -/

/-- Counting over a flat map vanishes when every block counts zero. -/
theorem countP_flatMap_zero {α β : Type} (p : β → Bool) (f : α → List β)
    (l : List α) (h : ∀ x ∈ l, (f x).countP p = 0) :
    (l.flatMap f).countP p = 0 := by
  induction l with
  | nil => simp
  | cons x xs ih =>
    rw [List.flatMap_cons, List.countP_append, h x (List.mem_cons_self _ _),
      ih (fun y hy => h y (List.mem_cons_of_mem _ hy))]

/-- Counting over a flat map with a single contributing block. -/
theorem countP_flatMap_single {α β : Type} (p : β → Bool) (f : α → List β)
    {l : List α} {c : α} (hc : c ∈ l) (hnd : l.Nodup)
    (h0 : ∀ x ∈ l, x ≠ c → (f x).countP p = 0) :
    (l.flatMap f).countP p = (f c).countP p := by
  induction l with
  | nil => simp at hc
  | cons x xs ih =>
    rw [List.flatMap_cons, List.countP_append]
    rcases List.mem_cons.mp hc with h | h
    · subst h
      have hxs : ∀ y ∈ xs, (f y).countP p = 0 := by
        intro y hy
        refine h0 y (List.mem_cons_of_mem _ hy) ?_
        rintro rfl
        exact (List.nodup_cons.mp hnd).1 hy
      rw [countP_flatMap_zero p f xs hxs]
      simp
    · have hx0 : (f x).countP p = 0 := by
        refine h0 x (List.mem_cons_self _ _) ?_
        rintro rfl
        exact (List.nodup_cons.mp hnd).1 h
      rw [hx0, ih h (List.nodup_cons.mp hnd).2
        (fun y hy hyc => h0 y (List.mem_cons_of_mem _ hy) hyc)]
      simp

/-- A duplicate-free list with at least two elements has an element
different from any given value. -/
theorem exists_ne_of_two_le_length {l : List Nat} (hnd : l.Nodup)
    (hlen : 2 ≤ l.length) (a : Nat) : ∃ b ∈ l, b ≠ a := by
  rcases l with _ | ⟨x, _ | ⟨y, tl⟩⟩
  · simp at hlen
  · simp at hlen
  · have hxy : x ≠ y := by
      rcases List.nodup_cons.mp hnd with ⟨hx, _⟩
      exact fun he => hx (he ▸ List.mem_cons_self _ _)
    by_cases hxa : x = a
    · exact ⟨y, List.mem_cons_of_mem _ (List.mem_cons_self _ _),
        fun he => hxy (hxa.trans he.symm)⟩
    · exact ⟨x, List.mem_cons_self _ _, hxa⟩

/-- The positive-candidate filter of the batch-hard selector is nonempty
whenever the class has at least two members. -/
theorem filter_ne_nonempty {l : List Nat} (hnd : l.Nodup)
    (hlen : 2 ≤ l.length) (a : Nat) :
    l.filter (fun p => p != a) ≠ [] := by
  obtain ⟨b, hb, hba⟩ := exists_ne_of_two_le_length hnd hlen a
  intro hnil
  have hmem : b ∈ l.filter (fun p => p != a) :=
    List.mem_filter.mpr ⟨hb, by simpa using hba⟩
  rw [hnil] at hmem
  simp at hmem

/-- `class_indices` never repeats an index. -/
theorem class_indices_nodup (labels : List Int) (c : Int) :
    (class_indices labels c).Nodup :=
  List.Nodup.filter _ (List.nodup_range _)

/-- Decomposition of a triplet emitted for one class by the batch-hard
selector. -/
theorem mem_hard_triplets_for_class {dist : Nat → Nat → ℚ}
    {labels : List Int} {c : Int} {t : Nat × Nat × Nat}
    (ht : t ∈ hard_triplets_for_class dist labels c) :
    ¬ (class_indices labels c).length < 2 ∧
    ¬ (other_indices labels c).length < 1 ∧
    ∃ an ∈ class_indices labels c,
      t = (an, argmaxBy (dist an)
            ((class_indices labels c).filter (fun p => p != an)),
          argminBy (dist an) (other_indices labels c)) := by
  by_cases h1 : (class_indices labels c).length < 2
  · rw [hard_triplets_for_class, if_pos h1] at ht
    simp at ht
  · by_cases h2 : (other_indices labels c).length < 1
    · rw [hard_triplets_for_class, if_neg h1, if_pos h2] at ht
      simp at ht
    · rw [hard_triplets_for_class, if_neg h1, if_neg h2] at ht
      obtain ⟨an, han, hant⟩ := List.mem_map.mp ht
      exact ⟨h1, h2, an, han, hant.symm⟩

/-- C3: in `get_batch_hard_triplets`, for every anchor `a` whose class has
at least two members and with some out-of-class example present, exactly
one triplet `(a, p, n)` is emitted, where `p` is a same-class example
distinct from `a` at maximum distance from `a` and `n` is a
different-class example at minimum distance from `a`; anchors of classes
with fewer than two members or without out-of-class examples contribute
zero triplets (and the function is total, so no error is raised). -/
theorem get_batch_hard_triplets_spec (dist : Nat → Nat → ℚ)
    (labels : List Int) (a : Nat) (ha : a < labels.length) :
    (2 ≤ (class_indices labels (labels.getD a 0)).length →
      other_indices labels (labels.getD a 0) ≠ [] →
      (get_batch_hard_triplets dist labels).countP
          (fun t => t.1 == a) = 1 ∧
      (∀ t ∈ get_batch_hard_triplets dist labels, t.1 = a →
        (t.2.1 ∈ class_indices labels (labels.getD a 0) ∧ t.2.1 ≠ a ∧
          ∀ p ∈ class_indices labels (labels.getD a 0), p ≠ a →
            dist a p ≤ dist a t.2.1) ∧
        (t.2.2 ∈ other_indices labels (labels.getD a 0) ∧
          ∀ m ∈ other_indices labels (labels.getD a 0),
            dist a t.2.2 ≤ dist a m))) ∧
    ((class_indices labels (labels.getD a 0)).length < 2 ∨
        other_indices labels (labels.getD a 0) = [] →
      (get_batch_hard_triplets dist labels).countP
          (fun t => t.1 == a) = 0) := by
  have hca : a ∈ class_indices labels (labels.getD a 0) :=
    mem_class_indices.mpr ⟨ha, rfl⟩
  have hcdedup : labels.getD a 0 ∈ labels.dedup :=
    List.mem_dedup.mpr (getD_mem_of_lt ha)
  have hzero : ∀ c' ∈ labels.dedup, c' ≠ labels.getD a 0 →
      (hard_triplets_for_class dist labels c').countP
        (fun t => t.1 == a) = 0 := by
    intro c' _ hne
    by_cases h1 : (class_indices labels c').length < 2
    · rw [hard_triplets_for_class, if_pos h1]
      simp
    · by_cases h2 : (other_indices labels c').length < 1
      · rw [hard_triplets_for_class, if_neg h1, if_pos h2]
        simp
      · rw [hard_triplets_for_class, if_neg h1, if_neg h2, List.countP_map]
        apply List.countP_eq_zero.mpr
        intro x hx
        simp only [Function.comp]
        intro hxa
        have hxa2 : x = a := by simpa using hxa
        subst hxa2
        exact hne (mem_class_indices.mp hx).2.symm
  refine ⟨fun hlen hother => ⟨?_, ?_⟩, fun hfail => ?_⟩
  · rw [get_batch_hard_triplets,
      countP_flatMap_single _ _ hcdedup (List.nodup_dedup _) hzero]
    have h1 : ¬ (class_indices labels (labels.getD a 0)).length < 2 := by
      omega
    have h2 : ¬ (other_indices labels (labels.getD a 0)).length < 1 := by
      have := List.length_pos.mpr hother
      omega
    rw [hard_triplets_for_class, if_neg h1, if_neg h2, List.countP_map]
    show (class_indices labels (labels.getD a 0)).count a = 1
    exact List.count_eq_one_of_mem
      (class_indices_nodup labels (labels.getD a 0)) hca
  · intro t ht ht1
    obtain ⟨c', hc'dedup, htc⟩ := List.mem_flatMap.mp ht
    obtain ⟨h1, h2, an, han, hteq⟩ := mem_hard_triplets_for_class htc
    have han_a : an = a := by
      rw [hteq] at ht1
      exact ht1
    subst han_a
    have hc'eq : c' = labels.getD an 0 := ((mem_class_indices.mp han).2).symm
    subst hc'eq
    rw [hteq]
    dsimp only
    have hnodup := class_indices_nodup labels (labels.getD an 0)
    have hlen2 : 2 ≤ (class_indices labels (labels.getD an 0)).length := by
      omega
    have hpcne := filter_ne_nonempty hnodup hlen2 an
    have hone : other_indices labels (labels.getD an 0) ≠ [] := by
      intro hnil
      rw [hnil] at h2
      simp at h2
    refine ⟨⟨?_, ?_, ?_⟩, ?_, ?_⟩
    · exact (List.mem_filter.mp (argmaxBy_mem (dist an) hpcne)).1
    · have hpred := (List.mem_filter.mp (argmaxBy_mem (dist an) hpcne)).2
      simpa using hpred
    · intro p hp hpa
      exact le_argmaxBy (dist an) p
        (List.mem_filter.mpr ⟨hp, by simpa using hpa⟩)
    · exact argminBy_mem (dist an) hone
    · intro m hm
      exact argminBy_le (dist an) m hm
  · rw [get_batch_hard_triplets]
    apply countP_flatMap_zero
    intro c' hc'
    by_cases hc'eq : c' = labels.getD a 0
    · subst hc'eq
      rcases hfail with hfail | hfail
      · rw [hard_triplets_for_class, if_pos hfail]
        simp
      · by_cases h1 :
            (class_indices labels (labels.getD a 0)).length < 2
        · rw [hard_triplets_for_class, if_pos h1]
          simp
        · rw [hard_triplets_for_class, if_neg h1, hfail,
            if_pos (by simp : ([] : List Nat).length < 1)]
          simp
    · exact hzero c' hc' hc'eq

/-- Witness for `get_batch_hard_triplets_spec` on labels `[0,0,1]` with a
constant distance matrix: anchor 0 heads exactly one triplet. -/
theorem get_batch_hard_triplets_spec_witness :
    (get_batch_hard_triplets (fun _ _ => 0) [0, 0, 1]).countP
      (fun t => t.1 == 0) = 1 :=
  ((get_batch_hard_triplets_spec (fun _ _ => 0) [0, 0, 1] 0 (by decide)).1
    (by decide) (by decide)).1

/-- Witness for `swa_update_spec`: `average_after = 2`, `update_every = 2`,
`counter = 4` (so `n_model = 1`), one shared parameter `w` with current
value 3 and averaged value 1. -/
theorem swa_update_spec_witness :
    (swa_update 2 2 4 [("w", 3)] [("w", 1)]).lookup "w" =
      (([("w", 1)] : List (String × ℚ)).lookup "w").map fun v =>
        match ([("w", 3)] : List (String × ℚ)).lookup "w" with
        | some p => (p + (((4 - 2) / 2 : Nat) : ℚ) * v) /
            ((((4 - 2) / 2 : Nat) : ℚ) + 1)
        | none => v :=
  (swa_update_spec 2 2 4 [("w", 3)] [("w", 1)] (by decide)).2 (by decide)
    (by decide) "w"
